import Mathlib

/-!
# QxtSpan / QxtSpanSet

A shallow embedding of `src/qxtspanset.h`.

Conventions of the embedding.

* The element type `T` is any linearly ordered type (`int`, `uint`, `char` in the header's
  typedefs); only its comparisons are used.
* A `Storage<Span>` is a `List`. The header never defines the container operations it calls
  (`pop_front` with a result, `first`, `append`, `length`), so they are read as follows:
  `append` adds a span at the back, `first` is the head, `pop_front` removes the head and yields
  it. What `pop_front` yields on an empty sequence is left open and is a parameter (`popEmpty`)
  of every method that calls it.
* `while (Span span = c.d.first())` is read as: loop while `c.d` has a first element, binding it
  to `span`.
* Loops are run with a bound `fuel` on the number of executions of the body; `none` is the
  outcome of a run that does not finish within the bound or that faults.
* `const` qualifiers are not enforced: a statement acts on the object it names. In particular
  the `d.pop_front()` of `mergeSpans` (line 286) acts on the receiver's `d`, as written, and not
  on the sorted copy `c.d`.
* `current = current.merge(span)` is read as the in-place `current.merge(span)`, and `!=` on spans
  as the negation of `operator==`.
* `min` and `max`, which the header calls without declaring them, are the minimum and the maximum
  of the order of `T`.
-/

namespace Qxt

/-! ## QxtSpan -/

/-- The struct `QxtSpan<T>`: the two public fields `A` and `B`. -/
structure QxtSpan (T : Type) where
  A : T
  B : T
  deriving DecidableEq

namespace QxtSpan

variable {T : Type} [LinearOrder T]

/-- The default constructor `QxtSpan()`: `A = B = T()`. -/
def default [Inhabited T] : QxtSpan T :=
  ⟨Inhabited.default, Inhabited.default⟩

/-- The constructor `QxtSpan(const T &a, const T &b)` (lines 65-71). -/
def ofEndpoints (a b : T) : QxtSpan T :=
  if a > b then ⟨b, a⟩ else ⟨a, b⟩

/-- The constructor `QxtSpan(std::initializer_list<T> l)` (lines 74-83): the first two values
are stored as given when there are at least two, and the default span otherwise. -/
def ofInitializerList [Inhabited T] : List T → QxtSpan T
  | a :: b :: _ => ⟨a, b⟩
  | _ => ⟨Inhabited.default, Inhabited.default⟩

/-- The order `operator<` (lines 85-87). -/
def lt (x other : QxtSpan T) : Bool :=
  if x.A = other.A then decide (x.B < other.B) else decide (x.A < other.A)

/-- The predicate `intersects` (lines 116-118). -/
def intersects (x other : QxtSpan T) : Bool :=
  decide (x.B ≥ other.A) && decide (x.A ≤ other.B)

/-- The predicate `contains` (lines 126-128). -/
def contains (x other : QxtSpan T) : Bool :=
  decide (x.A ≤ other.A) && decide (x.B ≥ other.B)

/-- The comparison `operator==` (lines 133-135). -/
def eq (x other : QxtSpan T) : Bool :=
  decide (x.A = other.A) && decide (x.B = other.B)

/-- The method `merge` (lines 96-104), as the value of the receiver after the call. -/
def merge (x other : QxtSpan T) : QxtSpan T :=
  if !x.intersects other then x
  else ⟨min x.A other.A, max x.B other.B⟩

/-- The closed interval of a span holds the point `p`. -/
def covers (x : QxtSpan T) (p : T) : Prop :=
  x.A ≤ p ∧ p ≤ x.B

instance (x : QxtSpan T) (p : T) : Decidable (x.covers p) := by
  unfold covers; infer_instance

/-- The reading of `merge` in spec §4.1, to be compared with the method: a span that does not
intersect `other` is left as it is, and otherwise `A` becomes the smaller `A` and `B` the larger
`B`. -/
def mergeReference (x other : QxtSpan T) : QxtSpan T :=
  if x.intersects other = true then ⟨min x.A other.A, max x.B other.B⟩ else x

end QxtSpan

/-! ## Storage -/

section Storage

variable {α : Type}

/-- The call `pop_front()` as the methods use it: the first element is removed and yielded.
On an empty sequence the outcome is `popEmpty`: `none` when the call faults, `some s` when it
yields the value `s` and leaves the sequence empty. -/
def pop_front (popEmpty : Option α) : List α → Option (α × List α)
  | [] => popEmpty.map fun s => (s, [])
  | x :: xs => some (x, xs)

end Storage

/-! ## QxtSpanSet -/

/-- The class `QxtSpanSet<T>`: the private member `d`. -/
structure QxtSpanSet (T : Type) where
  d : List (QxtSpan T)
  deriving DecidableEq

namespace QxtSpanSet

variable {T : Type} [LinearOrder T]

/-- The template argument `SortFunction`, `std::sort` by default: it leaves the range ordered so that
no element is `operator<` an earlier one. The order is total and two spans that are not `<` either
way are equal, so every correct sort yields the same sequence; insertion sort stands for it. -/
def SortFunction (l : List (QxtSpan T)) : List (QxtSpan T) :=
  l.insertionSort fun x y => y.lt x = false

/-- The method `sort()` (lines 193-195), as the receiver after the call. -/
def sort (S : QxtSpanSet T) : QxtSpanSet T :=
  ⟨SortFunction S.d⟩

/-- The constructor from an initializer list of spans (lines 198-202). -/
def ofInitializerList (list : List (QxtSpan T)) : QxtSpanSet T :=
  ⟨list.foldl (fun d s => d ++ [s]) []⟩

/-- The method `append` (line 207), as the receiver after the call. -/
def append (S : QxtSpanSet T) (item : QxtSpan T) : QxtSpanSet T :=
  ⟨S.d ++ [item]⟩

/-- The method `empty` (lines 311-313). -/
def empty (S : QxtSpanSet T) : Bool :=
  S.d.isEmpty

/-- The method `length` (lines 314-316). -/
def length (S : QxtSpanSet T) : Nat :=
  S.d.length

/-- The loop of `containedIn` (lines 223-234) on the sorted copy `c.d`, with the flag and the
result built so far. The body never removes an element from `c.d`. -/
def containedInLoop (other : QxtSpan T) :
    List (QxtSpan T) → Nat → Bool → List (QxtSpan T) → Option (List (QxtSpan T))
  | [], _, _, r => some r
  | _ :: _, 0, _, _ => none
  | span :: c, fuel + 1, flag, r =>
    if other.contains span then
      containedInLoop other (span :: c) fuel true (r ++ [span])
    else if flag then some r
    else containedInLoop other (span :: c) fuel flag r

/-- The method `containedIn` (lines 212-236). -/
def containedIn (popEmpty : Option (QxtSpan T)) (fuel : Nat) (S : QxtSpanSet T)
    (other : QxtSpan T) : Option (QxtSpanSet T) :=
  match pop_front popEmpty (SortFunction S.d) with
  | none => none
  | some (_, c) => (containedInLoop other c fuel false []).map QxtSpanSet.mk

/-- The loop of `intersectedIn` (lines 252-263), of the same shape as that of `containedIn`. -/
def intersectedInLoop (other : QxtSpan T) :
    List (QxtSpan T) → Nat → Bool → List (QxtSpan T) → Option (List (QxtSpan T))
  | [], _, _, r => some r
  | _ :: _, 0, _, _ => none
  | span :: c, fuel + 1, flag, r =>
    if other.intersects span then
      intersectedInLoop other (span :: c) fuel true (r ++ [span])
    else if flag then some r
    else intersectedInLoop other (span :: c) fuel flag r

/-- The method `intersectedIn` (lines 241-265). -/
def intersectedIn (popEmpty : Option (QxtSpan T)) (fuel : Nat) (S : QxtSpanSet T)
    (other : QxtSpan T) : Option (QxtSpanSet T) :=
  match pop_front popEmpty (SortFunction S.d) with
  | none => none
  | some (_, c) => (intersectedInLoop other c fuel false []).map QxtSpanSet.mk

/-- The loop of `mergeSpans` (lines 279-287). Its state is the receiver's `d`, the accumulator
`current` and the result `r`; the sorted copy `c.d` is read by `first()` and is not changed by the
body, whose `pop_front` (line 286) is applied to the receiver's `d`. The pair `next` is
`current` and `r` as the `if` of lines 280-285 leaves them. -/
def mergeSpansLoop (popEmpty : Option (QxtSpan T)) :
    List (QxtSpan T) → Nat → List (QxtSpan T) → QxtSpan T → List (QxtSpan T) →
      Option (List (QxtSpan T) × QxtSpan T × List (QxtSpan T))
  | [], _, d, current, r => some (d, current, r)
  | _ :: _, 0, _, _, _ => none
  | span :: c, fuel + 1, d, current, r =>
    let next : QxtSpan T × List (QxtSpan T) :=
      if current.intersects span then (current.merge span, r)
      else (span, r ++ [current])
    match pop_front popEmpty d with
    | none => none
    | some (_, d') => mergeSpansLoop popEmpty (span :: c) fuel d' next.1 next.2

/-- The method `mergeSpans` (lines 271-290): the returned set paired with the receiver as the call
leaves it. -/
def mergeSpans (popEmpty : Option (QxtSpan T)) (fuel : Nat) (S other : QxtSpanSet T) :
    Option (QxtSpanSet T × QxtSpanSet T) :=
  match pop_front popEmpty (SortFunction (S.d ++ other.d)) with
  | none => none
  | some (current, c) =>
    match mergeSpansLoop popEmpty c fuel S.d current [] with
    | none => none
    | some (d', current', r) => some (⟨r ++ [current']⟩, ⟨d'⟩)

/-- One execution of the body of the loop of `mergeSpans` (lines 280-286), `span` being the first
element of `c.d`, on the state `(d, current, r)`: the state it leaves, `none` when `pop_front`
faults. -/
def mergeSpansBody (popEmpty : Option (QxtSpan T)) (span : QxtSpan T)
    (s : List (QxtSpan T) × QxtSpan T × List (QxtSpan T)) :
    Option (List (QxtSpan T) × QxtSpan T × List (QxtSpan T)) :=
  let next : QxtSpan T × List (QxtSpan T) :=
    if s.2.1.intersects span then (s.2.1.merge span, s.2.2)
    else (span, s.2.2 ++ [s.2.1])
  match pop_front popEmpty s.1 with
  | none => none
  | some (_, d') => some (d', next.1, next.2)

/-- The state of the loop of `mergeSpans` after `n` executions of its body from the state `s`:
`none` when the loop has ended, or faulted, before. -/
def mergeSpansIterate (popEmpty : Option (QxtSpan T)) (c : List (QxtSpan T)) :
    Nat → List (QxtSpan T) × QxtSpan T × List (QxtSpan T) →
      Option (List (QxtSpan T) × QxtSpan T × List (QxtSpan T))
  | 0, s => some s
  | n + 1, s =>
    match c with
    | [] => none
    | span :: _ => (mergeSpansBody popEmpty span s).bind (mergeSpansIterate popEmpty c n)

/-- The receiver during a call of `mergeSpans` (lines 271-290), once the loop body has been
executed `n` times. -/
def mergeSpansReceiverAfter (popEmpty : Option (QxtSpan T)) (n : Nat) (S other : QxtSpanSet T) :
    Option (QxtSpanSet T) :=
  match pop_front popEmpty (SortFunction (S.d ++ other.d)) with
  | none => none
  | some (current, c) =>
    (mergeSpansIterate popEmpty c n (S.d, current, [])).map fun s => ⟨s.1⟩

/-- The loop of `operator==` (lines 327-331) over the two sequences, which have equal length
when it is entered. -/
def operatorEqLoop : List (QxtSpan T) → List (QxtSpan T) → Bool
  | m :: ms, o :: os => if !(m.eq o) then false else operatorEqLoop ms os
  | _, _ => true

/-- The identity operator `operator==` (lines 322-333). -/
def operatorEq (S other : QxtSpanSet T) : Bool :=
  if other.length != S.length then false
  else operatorEqLoop S.d other.d

/-- The method `isIdenticalTo` (lines 335-337). -/
def isIdenticalTo (S other : QxtSpanSet T) : Bool :=
  S.operatorEq other

/-- The method `isEqualTo` (lines 343-350). -/
def isEqualTo (S other : QxtSpanSet T) : Bool :=
  let a := S.sort
  let b := other.sort
  a.isIdenticalTo b

/-! ### Vocabulary of the properties -/

/-- Some span of the sequence holds the point `p` in its closed interval. -/
def covered (l : List (QxtSpan T)) (p : T) : Prop :=
  ∃ x ∈ l, x.covers p

instance (l : List (QxtSpan T)) (p : T) : Decidable (covered l p) := by
  unfold covered; infer_instance

/-- The set `S` with its positions reordered by the permutation `p`. -/
def reorder (S : QxtSpanSet T) (p : Equiv.Perm (Fin S.d.length)) : QxtSpanSet T :=
  ⟨List.ofFn fun i => S.d.get (p i)⟩

/-- The reading of `containedIn` in spec §4.2, to be compared with the method: sort a copy, drop
the leading spans the boundary does not contain, keep the longest run of spans it contains. -/
def containedInReference (S : QxtSpanSet T) (b : QxtSpan T) : QxtSpanSet T :=
  ⟨((SortFunction S.d).dropWhile fun s => !b.contains s).takeWhile fun s => b.contains s⟩

/-- The reading of `intersectedIn` in spec §4.2, to be compared with the method: sort a copy, drop
the leading spans the boundary does not intersect, keep the longest run of spans it
intersects. -/
def intersectedInReference (S : QxtSpanSet T) (b : QxtSpan T) : QxtSpanSet T :=
  ⟨((SortFunction S.d).dropWhile fun s => !b.intersects s).takeWhile fun s => b.intersects s⟩

/-- The sweep of spec §4.2, to be compared with `mergeSpansLoop`: each span read from the sorted
copy is removed from it, so the next iteration reads the next span. -/
def sweepLoop : List (QxtSpan T) → QxtSpan T → List (QxtSpan T) → List (QxtSpan T)
  | [], current, r => r ++ [current]
  | span :: c, current, r =>
    if current.intersects span then sweepLoop c (current.merge span) r
    else sweepLoop c span (r ++ [current])

/-- The reading of `mergeSpans` in spec §4.2, to be compared with the method: concatenate, sort,
sweep; an empty input gives an empty result. -/
def specMergeSpans (S other : QxtSpanSet T) : QxtSpanSet T :=
  match SortFunction (S.d ++ other.d) with
  | [] => ⟨[]⟩
  | current :: c => ⟨sweepLoop c current []⟩

end QxtSpanSet

/-! # Properties -/

namespace QxtSpan

variable {T : Type} [LinearOrder T]

theorem lt_iff (x y : QxtSpan T) :
    x.lt y = true ↔ x.A < y.A ∨ (x.A = y.A ∧ x.B < y.B) := by
  unfold lt
  by_cases h : x.A = y.A
  · simp [h]
  · simp [h]

theorem lt_eq_false_iff (x y : QxtSpan T) :
    y.lt x = false ↔ x.A < y.A ∨ (x.A = y.A ∧ x.B ≤ y.B) := by
  unfold lt
  by_cases h : y.A = x.A
  · simp [h]
  · simp only [h, if_false, decide_eq_false_iff_not, not_lt]
    constructor
    · intro hle
      exact Or.inl (lt_of_le_of_ne hle (Ne.symm h))
    · rintro (hlt | ⟨he, _⟩)
      · exact le_of_lt hlt
      · exact absurd he.symm h

theorem eq_iff (x y : QxtSpan T) : x.eq y = true ↔ x = y := by
  cases x; cases y; simp [eq]

instance sortOrder_total : IsTotal (QxtSpan T) (fun x y => y.lt x = false) where
  total x y := by
    simp only [lt_eq_false_iff]
    rcases lt_trichotomy x.A y.A with h | h | h
    · exact Or.inl (Or.inl h)
    · rcases le_total x.B y.B with hb | hb
      · exact Or.inl (Or.inr ⟨h, hb⟩)
      · exact Or.inr (Or.inr ⟨h.symm, hb⟩)
    · exact Or.inr (Or.inl h)

instance sortOrder_trans : IsTrans (QxtSpan T) (fun x y => y.lt x = false) where
  trans x y z := by
    simp only [lt_eq_false_iff]
    rintro (h1 | ⟨e1, b1⟩) (h2 | ⟨e2, b2⟩)
    · exact Or.inl (lt_trans h1 h2)
    · exact Or.inl (e2 ▸ h1)
    · exact Or.inl (e1 ▸ h2)
    · exact Or.inr ⟨e1.trans e2, le_trans b1 b2⟩

instance sortOrder_antisymm : IsAntisymm (QxtSpan T) (fun x y => y.lt x = false) where
  antisymm x y := by
    simp only [lt_eq_false_iff]
    rintro (h1 | ⟨e1, b1⟩) (h2 | ⟨e2, b2⟩)
    · exact absurd h2 (lt_asymm h1)
    · exact absurd h1 (e2 ▸ lt_irrefl _)
    · exact absurd h2 (e1 ▸ lt_irrefl _)
    · cases x; cases y; simp only [mk.injEq]; exact ⟨e1, le_antisymm b1 b2⟩

theorem intersects_iff (x y : QxtSpan T) : x.intersects y = true ↔ y.A ≤ x.B ∧ x.A ≤ y.B := by
  simp [intersects]

theorem intersects_eq_false_iff (x y : QxtSpan T) :
    x.intersects y = false ↔ x.B < y.A ∨ y.B < x.A := by
  rw [← Bool.not_eq_true, intersects_iff, not_and_or, not_le, not_le]

theorem intersects_comm (x y : QxtSpan T) : x.intersects y = y.intersects x := by
  rw [Bool.eq_iff_iff, intersects_iff, intersects_iff, and_comm]

theorem merge_of_intersects (x y : QxtSpan T) (h : x.intersects y = true) :
    x.merge y = ⟨min x.A y.A, max x.B y.B⟩ := by
  simp [merge, h]

theorem merge_covers (x y : QxtSpan T) (h : x.intersects y = true) (p : T) :
    (x.merge y).covers p ↔ x.covers p ∨ y.covers p := by
  rw [merge_of_intersects x y h]
  rw [intersects_iff] at h
  obtain ⟨h1, h2⟩ := h
  simp only [covers, min_le_iff, le_max_iff]
  constructor
  · rintro ⟨ha | ha, hb | hb⟩
    · exact Or.inl ⟨ha, hb⟩
    · rcases le_total p x.B with hp | hp
      · exact Or.inl ⟨ha, hp⟩
      · exact Or.inr ⟨le_trans h1 hp, hb⟩
    · rcases le_total x.A p with hp | hp
      · exact Or.inl ⟨hp, hb⟩
      · exact Or.inr ⟨ha, le_trans hp h2⟩
    · exact Or.inr ⟨ha, hb⟩
  · rintro (⟨ha, hb⟩ | ⟨ha, hb⟩)
    · exact ⟨Or.inl ha, Or.inl hb⟩
    · exact ⟨Or.inr ha, Or.inr hb⟩

end QxtSpan

namespace QxtSpanSet

variable {T : Type} [LinearOrder T]

/-! ## Sorting -/

theorem SortFunction_perm (l : List (QxtSpan T)) : (SortFunction l).Perm l :=
  List.perm_insertionSort _ l

theorem SortFunction_sorted (l : List (QxtSpan T)) :
    (SortFunction l).Sorted fun x y => y.lt x = false :=
  List.sorted_insertionSort _ l

/-- Every correct sort agrees with `SortFunction`. -/
theorem SortFunction_unique (l l' : List (QxtSpan T)) (hp : l'.Perm l)
    (hs : l'.Sorted fun x y => y.lt x = false) : l' = SortFunction l :=
  List.eq_of_perm_of_sorted (hp.trans (SortFunction_perm l).symm) hs (SortFunction_sorted l)

theorem SortFunction_eq_iff_perm (l l' : List (QxtSpan T)) :
    SortFunction l = SortFunction l' ↔ l.Perm l' := by
  constructor
  · intro h
    exact (SortFunction_perm l).symm.trans (h ▸ SortFunction_perm l')
  · intro h
    exact SortFunction_unique l' _ ((SortFunction_perm l).trans h) (SortFunction_sorted l)

theorem operatorEqLoop_iff : ∀ (l l' : List (QxtSpan T)), l.length = l'.length →
    (operatorEqLoop l l' = true ↔ l = l')
  | [], [], _ => by simp [operatorEqLoop]
  | [], _ :: _, h => by simp at h
  | _ :: _, [], h => by simp at h
  | m :: ms, o :: os, h => by
    have ih := operatorEqLoop_iff ms os (by simpa using h)
    by_cases hmo : m.eq o = true
    · have hm : m = o := (QxtSpan.eq_iff m o).1 hmo
      simp only [operatorEqLoop, hmo, Bool.not_true, Bool.false_eq_true, if_false, ih]
      simp [hm]
    · have hne : m ≠ o := fun e => hmo ((QxtSpan.eq_iff m o).2 e)
      simp [operatorEqLoop, hmo, hne]

theorem operatorEq_iff (S other : QxtSpanSet T) : S.operatorEq other = true ↔ S = other := by
  unfold operatorEq length
  by_cases h : other.d.length = S.d.length
  · simp only [h, bne_self_eq_false, Bool.false_eq_true, if_false]
    rw [operatorEqLoop_iff _ _ h.symm]
    cases S; cases other; simp
  · have hne : S ≠ other := fun e => h (e ▸ rfl)
    simp [h, hne]

theorem isIdenticalTo_iff (S other : QxtSpanSet T) : S.isIdenticalTo other = true ↔ S = other :=
  operatorEq_iff S other


/-! ## The loops of the source -/

theorem SortFunction_length (l : List (QxtSpan T)) : (SortFunction l).length = l.length :=
  (SortFunction_perm l).length_eq

theorem mergeSpansLoop_cons (popEmpty : Option (QxtSpan T)) (span : QxtSpan T)
    (c : List (QxtSpan T)) :
    ∀ (fuel : Nat) (d : List (QxtSpan T)) (current : QxtSpan T) (r : List (QxtSpan T)),
      mergeSpansLoop popEmpty (span :: c) fuel d current r = none := by
  intro fuel
  induction fuel with
  | zero => intro d current r; rfl
  | succ n ih =>
    intro d current r
    rw [mergeSpansLoop]
    cases pop_front popEmpty d with
    | none => rfl
    | some p => exact ih _ _ _

theorem mergeSpans_of_two_le (popEmpty : Option (QxtSpan T)) (fuel : Nat)
    (S other : QxtSpanSet T) (h : 2 ≤ S.d.length + other.d.length) :
    mergeSpans popEmpty fuel S other = none := by
  have hlen : 2 ≤ (SortFunction (S.d ++ other.d)).length := by
    rw [SortFunction_length, List.length_append]; exact h
  unfold mergeSpans
  match hc : SortFunction (S.d ++ other.d), hlen with
  | x :: y :: rest, _ =>
    simp only [pop_front, mergeSpansLoop_cons]

theorem mergeSpans_of_empty (popEmpty : Option (QxtSpan T)) (fuel : Nat) :
    mergeSpans popEmpty fuel ⟨[]⟩ ⟨[]⟩ = popEmpty.map fun s => (⟨[s]⟩, ⟨[]⟩) := by
  cases popEmpty <;> simp [mergeSpans, SortFunction, pop_front, mergeSpansLoop]

theorem SortFunction_singleton (x : QxtSpan T) : SortFunction [x] = [x] := rfl

theorem mergeSpans_of_single (popEmpty : Option (QxtSpan T)) (fuel : Nat)
    (S other : QxtSpanSet T) (x : QxtSpan T) (h : S.d ++ other.d = [x]) :
    mergeSpans popEmpty fuel S other = some (⟨[x]⟩, S) := by
  unfold mergeSpans
  rw [h, SortFunction_singleton]
  simp [pop_front, mergeSpansLoop]

theorem containedInLoop_cons_true (other span : QxtSpan T) (c : List (QxtSpan T))
    (h : other.contains span = true) :
    ∀ (fuel : Nat) (flag : Bool) (r : List (QxtSpan T)),
      containedInLoop other (span :: c) fuel flag r = none := by
  intro fuel
  induction fuel with
  | zero => intro flag r; rfl
  | succ n ih => intro flag r; rw [containedInLoop, if_pos h]; exact ih _ _

theorem containedInLoop_cons (other span : QxtSpan T) (c : List (QxtSpan T)) :
    ∀ (fuel : Nat) (r : List (QxtSpan T)),
      containedInLoop other (span :: c) fuel false r = none := by
  by_cases h : other.contains span = true
  · intro fuel r; exact containedInLoop_cons_true other span c h fuel false r
  · intro fuel
    induction fuel with
    | zero => intro r; rfl
    | succ n ih => intro r; rw [containedInLoop, if_neg h]; simpa using ih r

theorem containedIn_of_two_le (popEmpty : Option (QxtSpan T)) (fuel : Nat) (S : QxtSpanSet T)
    (other : QxtSpan T) (h : 2 ≤ S.d.length) : containedIn popEmpty fuel S other = none := by
  have hlen : 2 ≤ (SortFunction S.d).length := by rw [SortFunction_length]; exact h
  unfold containedIn
  match hc : SortFunction S.d, hlen with
  | x :: y :: rest, _ => simp only [pop_front, containedInLoop_cons, Option.map_none']

theorem containedIn_of_single (popEmpty : Option (QxtSpan T)) (fuel : Nat)
    (x other : QxtSpan T) : containedIn popEmpty fuel ⟨[x]⟩ other = some ⟨[]⟩ := by
  simp [containedIn, SortFunction, pop_front, containedInLoop]

theorem containedIn_of_empty (popEmpty : Option (QxtSpan T)) (fuel : Nat)
    (other : QxtSpan T) :
    containedIn popEmpty fuel ⟨[]⟩ other = popEmpty.map fun _ => ⟨[]⟩ := by
  cases popEmpty <;> simp [containedIn, SortFunction, pop_front, containedInLoop]

/-- Whatever the input, a result of `containedIn` holds no span. -/
theorem containedIn_eq_some (popEmpty : Option (QxtSpan T)) (fuel : Nat) (S R : QxtSpanSet T)
    (other : QxtSpan T) (h : containedIn popEmpty fuel S other = some R) : R = ⟨[]⟩ := by
  rcases S with ⟨d⟩
  match d, h with
  | [], h =>
    rw [containedIn_of_empty] at h
    cases popEmpty <;> simp_all
  | [x], h =>
    rw [containedIn_of_single] at h
    exact (Option.some.inj h).symm
  | x :: y :: rest, h =>
    rw [containedIn_of_two_le _ _ _ _ (by simp)] at h
    cases h

/-! ## The sweep of the spec -/

theorem sweepLoop_append : ∀ (c : List (QxtSpan T)) (current : QxtSpan T) (r : List (QxtSpan T)),
    sweepLoop c current r = r ++ sweepLoop c current []
  | [], current, r => by simp [sweepLoop]
  | span :: c, current, r => by
    by_cases h : current.intersects span = true
    · simp only [sweepLoop, h, if_true]
      exact sweepLoop_append c _ r
    · simp only [sweepLoop, h]
      rw [sweepLoop_append c span (r ++ [current]), sweepLoop_append c span ([] ++ [current])]
      simp

theorem sweepLoop_cons_of_not (span current : QxtSpan T) (c : List (QxtSpan T))
    (h : current.intersects span = false) :
    sweepLoop (span :: c) current [] = current :: sweepLoop c span [] := by
  have h1 : sweepLoop (span :: c) current [] = sweepLoop c span ([] ++ [current]) := by
    rw [sweepLoop]; simp [h]
  rw [h1, sweepLoop_append]
  rfl

theorem sweepLoop_cons_of_intersects (span current : QxtSpan T) (c : List (QxtSpan T))
    (h : current.intersects span = true) :
    sweepLoop (span :: c) current [] = sweepLoop c (current.merge span) [] := by
  rw [sweepLoop, h]; rfl

theorem covered_cons (x : QxtSpan T) (l : List (QxtSpan T)) (p : T) :
    covered (x :: l) p ↔ x.covers p ∨ covered l p := by
  simp [covered]

theorem sweepLoop_covered (p : T) : ∀ (c : List (QxtSpan T)) (current : QxtSpan T),
    covered (sweepLoop c current []) p ↔ covered (current :: c) p
  | [], current => by simp [sweepLoop]
  | span :: c, current => by
    by_cases h : current.intersects span = true
    · rw [sweepLoop_cons_of_intersects _ _ _ h, sweepLoop_covered p c, covered_cons,
        QxtSpan.merge_covers _ _ h, covered_cons, covered_cons, or_assoc]
    · rw [Bool.not_eq_true] at h
      rw [sweepLoop_cons_of_not _ _ _ h, covered_cons, sweepLoop_covered p c, covered_cons,
        covered_cons, covered_cons]

theorem covered_perm {l l' : List (QxtSpan T)} (h : l.Perm l') (p : T) :
    covered l p ↔ covered l' p := by
  simp only [covered, h.mem_iff]

/-- The sweep covers exactly the points of the two inputs. -/
theorem specMergeSpans_covered (S other : QxtSpanSet T) (p : T) :
    covered (specMergeSpans S other).d p ↔ covered S.d p ∨ covered other.d p := by
  have hp := SortFunction_perm (S.d ++ other.d)
  have key : covered (specMergeSpans S other).d p ↔ covered (SortFunction (S.d ++ other.d)) p := by
    unfold specMergeSpans
    cases SortFunction (S.d ++ other.d) with
    | nil => rfl
    | cons x c => exact sweepLoop_covered p c x
  rw [key, covered_perm hp]
  simp [covered, or_and_right, exists_or]

/-- With the accumulator starting no later than every span still to come, the sweep yields spans
each ending before the next begins. -/
theorem sweepLoop_separated : ∀ (c : List (QxtSpan T)) (current : QxtSpan T),
    (current :: c).Pairwise (fun x y => x.A ≤ y.A) → (∀ x ∈ current :: c, x.A ≤ x.B) →
      (sweepLoop c current []).Pairwise (fun x y => x.B < y.A) ∧
        ∀ x ∈ sweepLoop c current [], current.A ≤ x.A ∧ x.A ≤ x.B
  | [], current, _, hv => by
    simp only [sweepLoop, List.nil_append, List.pairwise_singleton, List.mem_singleton, true_and]
    rintro x rfl
    exact ⟨le_refl _, hv x (List.mem_singleton_self x)⟩
  | span :: c, current, hs, hv => by
    have hcs : current.A ≤ span.A := (List.pairwise_cons.1 hs).1 span (List.mem_cons_self _ _)
    have hsc : (span :: c).Pairwise (fun x y => x.A ≤ y.A) := (List.pairwise_cons.1 hs).2
    have hvc : current.A ≤ current.B := hv current (List.mem_cons_self _ _)
    have hvs : span.A ≤ span.B := hv span (List.mem_cons_of_mem _ (List.mem_cons_self _ _))
    by_cases h : current.intersects span = true
    · rw [sweepLoop_cons_of_intersects _ _ _ h]
      have hm : current.merge span = ⟨current.A, max current.B span.B⟩ := by
        rw [QxtSpan.merge_of_intersects _ _ h, min_eq_left hcs]
      have ih := sweepLoop_separated c (current.merge span)
        (by
          rw [hm]
          refine List.pairwise_cons.2 ⟨?_, (List.pairwise_cons.1 hsc).2⟩
          intro y hy
          exact (List.pairwise_cons.1 hs).1 y (List.mem_cons_of_mem _ hy))
        (by
          intro x hx
          rcases List.mem_cons.1 hx with rfl | hx
          · rw [hm]; exact le_trans hvc (le_max_left _ _)
          · exact hv x (List.mem_cons_of_mem _ (List.mem_cons_of_mem _ hx)))
      refine ⟨ih.1, fun x hx => ?_⟩
      have := ih.2 x hx
      rw [hm] at this
      exact this
    · rw [Bool.not_eq_true] at h
      rw [sweepLoop_cons_of_not _ _ _ h]
      have ih := sweepLoop_separated c span hsc
        (fun x hx => hv x (List.mem_cons_of_mem _ hx))
      have hlt : current.B < span.A := by
        rcases (QxtSpan.intersects_eq_false_iff _ _).1 h with h1 | h1
        · exact h1
        · exact absurd (le_trans hcs hvs) (not_le.2 h1)
      refine ⟨List.pairwise_cons.2 ⟨fun y hy => lt_of_lt_of_le hlt (ih.2 y hy).1, ih.1⟩, ?_⟩
      intro x hx
      rcases List.mem_cons.1 hx with rfl | hx
      · exact ⟨le_refl _, hvc⟩
      · exact ⟨le_trans hcs (ih.2 x hx).1, (ih.2 x hx).2⟩

theorem SortFunction_pairwise_A (l : List (QxtSpan T)) :
    (SortFunction l).Pairwise fun x y => x.A ≤ y.A := by
  refine (SortFunction_sorted l).imp ?_
  intro a b h
  rcases (QxtSpan.lt_eq_false_iff a b).1 h with h | ⟨h, _⟩
  · exact le_of_lt h
  · exact le_of_eq h

/-- On spans with `A ≤ B` the sweep yields spans each ending before the next begins: no two of
them intersect and they ascend strictly in the span order. -/
theorem specMergeSpans_separated (S other : QxtSpanSet T)
    (hv : ∀ x ∈ S.d ++ other.d, x.A ≤ x.B) :
    (specMergeSpans S other).d.Pairwise (fun x y => x.intersects y = false ∧ y.intersects x = false)
      ∧ (specMergeSpans S other).d.Pairwise (fun x y => x.lt y = true) := by
  have hp := SortFunction_perm (S.d ++ other.d)
  have hs := SortFunction_pairwise_A (S.d ++ other.d)
  have key : (specMergeSpans S other).d.Pairwise (fun x y => x.B < y.A) ∧
      ∀ x ∈ (specMergeSpans S other).d, x.A ≤ x.B := by
    unfold specMergeSpans
    revert hp hs
    cases SortFunction (S.d ++ other.d) with
    | nil => intro _ _; simp
    | cons x c =>
      intro hp hs
      have := sweepLoop_separated c x hs (fun y hy => hv y (hp.mem_iff.1 hy))
      exact ⟨this.1, fun y hy => (this.2 y hy).2⟩
  obtain ⟨hsep, hval⟩ := key
  constructor
  · refine hsep.imp ?_
    intro a b hab
    exact ⟨(QxtSpan.intersects_eq_false_iff a b).2 (Or.inl hab), (QxtSpan.intersects_eq_false_iff b a).2 (Or.inr hab)⟩
  · have h2 : (specMergeSpans S other).d.Pairwise (fun x y => x.A ≤ x.B ∧ x.B < y.A) := by
      rw [List.pairwise_iff_forall_sublist] 
      intro a b hab
      exact ⟨hval a (hab.subset (by simp)), (List.pairwise_iff_forall_sublist.1 hsep) hab⟩
    refine h2.imp ?_
    intro a b hab
    exact (QxtSpan.lt_iff a b).2 (Or.inl (lt_of_le_of_lt hab.1 hab.2))


theorem sweepLoop_of_pairwise_disjoint : ∀ (c : List (QxtSpan T)) (current : QxtSpan T),
    (current :: c).Pairwise (fun x y => x.intersects y = false) →
      sweepLoop c current [] = current :: c
  | [], _, _ => rfl
  | span :: c, current, h => by
    have h1 : current.intersects span = false :=
      (List.pairwise_cons.1 h).1 span (List.mem_cons_self _ _)
    rw [sweepLoop_cons_of_not _ _ _ h1, sweepLoop_of_pairwise_disjoint c span (List.pairwise_cons.1 h).2]

/-- On pairwise non-intersecting spans the sweep is the sorted concatenation of the inputs. -/
theorem specMergeSpans_of_pairwise_disjoint (S other : QxtSpanSet T)
    (h : (S.d ++ other.d).Pairwise fun x y => x.intersects y = false) :
    specMergeSpans S other = ⟨SortFunction (S.d ++ other.d)⟩ := by
  have hsym : Symmetric fun x y : QxtSpan T => x.intersects y = false := by
    intro x y hxy
    rw [QxtSpan.intersects_comm]; exact hxy
  have hs : (SortFunction (S.d ++ other.d)).Pairwise fun x y => x.intersects y = false :=
    ((SortFunction_perm (S.d ++ other.d)).pairwise_iff (fun {a b} hab => hsym hab)).2 h
  unfold specMergeSpans
  revert hs
  cases SortFunction (S.d ++ other.d) with
  | nil => intro _; rfl
  | cons x c => intro hs; simp only [sweepLoop_of_pairwise_disjoint c x hs]

theorem SortFunction_pair (x y : QxtSpan T) :
    SortFunction [x, y] = [x, y] ∨ SortFunction [x, y] = [y, x] := by
  by_cases h : y.lt x = false
  · left; simp [SortFunction, List.insertionSort, List.orderedInsert, h]
  · right; simp [SortFunction, List.insertionSort, List.orderedInsert, h]

/-- On two intersecting spans, given in either set, the sweep is the one span from the smaller `A` to the
larger `B`. -/
theorem specMergeSpans_pair (x y : QxtSpan T) (h : x.intersects y = true) :
    specMergeSpans ⟨[x, y]⟩ ⟨[]⟩ = ⟨[⟨min x.A y.A, max x.B y.B⟩]⟩ ∧
      specMergeSpans ⟨[]⟩ ⟨[x, y]⟩ = ⟨[⟨min x.A y.A, max x.B y.B⟩]⟩ := by
  have h' : y.intersects x = true := by rw [QxtSpan.intersects_comm]; exact h
  have key : ∀ l, l = [x, y] → (match SortFunction l with
      | [] => (⟨[]⟩ : QxtSpanSet T)
      | current :: c => ⟨sweepLoop c current []⟩) = ⟨[⟨min x.A y.A, max x.B y.B⟩]⟩ := by
    rintro l rfl
    rcases SortFunction_pair x y with e | e
    · rw [e]
      simp only [sweepLoop_cons_of_intersects _ _ _ h, sweepLoop, List.nil_append,
        QxtSpan.merge_of_intersects _ _ h, h, if_true]
    · rw [e]
      simp only [sweepLoop_cons_of_intersects _ _ _ h', sweepLoop, List.nil_append,
        QxtSpan.merge_of_intersects _ _ h', min_comm y.A, max_comm y.B, h', if_true]
  exact ⟨key _ (by simp), key _ (by simp)⟩

theorem specMergeSpans_empty : specMergeSpans (⟨[]⟩ : QxtSpanSet T) ⟨[]⟩ = ⟨[]⟩ := rfl

/-- Over the integers two adjacent spans do not intersect, so the sweep keeps both, although one
span covers the same integers. -/
theorem specMergeSpans_adjacent :
    specMergeSpans (⟨[⟨1, 2⟩]⟩ : QxtSpanSet Int) ⟨[⟨3, 4⟩]⟩ = ⟨[⟨1, 2⟩, ⟨3, 4⟩]⟩ ∧
      ∀ p : Int, covered [(⟨1, 4⟩ : QxtSpan Int)] p ↔
        covered [(⟨1, 2⟩ : QxtSpan Int), ⟨3, 4⟩] p := by
  refine ⟨by decide, fun p => ?_⟩
  simp only [covered, List.mem_singleton, exists_eq_left, QxtSpan.covers, List.mem_cons,
    List.not_mem_nil, or_false, exists_eq_or_imp]
  omega

theorem isIdenticalTo_reorder_iff (S : QxtSpanSet T) (p : Equiv.Perm (Fin S.d.length)) :
    S.isIdenticalTo (S.reorder p) = true ↔ ∀ i, S.d.get (p i) = S.d.get i := by
  rw [isIdenticalTo_iff]
  constructor
  · intro h i
    have hd : S.d = List.ofFn fun i => S.d.get (p i) := congrArg QxtSpanSet.d h
    have h2 : List.ofFn S.d.get = List.ofFn fun i => S.d.get (p i) := by
      rw [List.ofFn_get]; exact hd
    exact (congrFun (List.ofFn_injective h2) i).symm
  · intro h
    have : (fun i => S.d.get (p i)) = S.d.get := funext h
    cases S with
    | mk d =>
      simp only [reorder, mk.injEq]
      simp only at this
      rw [this, List.ofFn_get]


theorem intersectedInLoop_cons_true (other span : QxtSpan T) (c : List (QxtSpan T))
    (h : other.intersects span = true) :
    ∀ (fuel : Nat) (flag : Bool) (r : List (QxtSpan T)),
      intersectedInLoop other (span :: c) fuel flag r = none := by
  intro fuel
  induction fuel with
  | zero => intro flag r; rfl
  | succ n ih => intro flag r; rw [intersectedInLoop, if_pos h]; exact ih _ _

theorem intersectedInLoop_cons (other span : QxtSpan T) (c : List (QxtSpan T)) :
    ∀ (fuel : Nat) (r : List (QxtSpan T)),
      intersectedInLoop other (span :: c) fuel false r = none := by
  by_cases h : other.intersects span = true
  · intro fuel r; exact intersectedInLoop_cons_true other span c h fuel false r
  · intro fuel
    induction fuel with
    | zero => intro r; rfl
    | succ n ih => intro r; rw [intersectedInLoop, if_neg h]; simpa using ih r

theorem intersectedIn_of_two_le (popEmpty : Option (QxtSpan T)) (fuel : Nat) (S : QxtSpanSet T)
    (other : QxtSpan T) (h : 2 ≤ S.d.length) : intersectedIn popEmpty fuel S other = none := by
  have hlen : 2 ≤ (SortFunction S.d).length := by rw [SortFunction_length]; exact h
  unfold intersectedIn
  match hc : SortFunction S.d, hlen with
  | x :: y :: rest, _ => simp only [pop_front, intersectedInLoop_cons, Option.map_none']

theorem intersectedIn_of_single (popEmpty : Option (QxtSpan T)) (fuel : Nat)
    (x other : QxtSpan T) : intersectedIn popEmpty fuel ⟨[x]⟩ other = some ⟨[]⟩ := by
  simp [intersectedIn, SortFunction, pop_front, intersectedInLoop]

theorem intersectedIn_of_empty (popEmpty : Option (QxtSpan T)) (fuel : Nat)
    (other : QxtSpan T) :
    intersectedIn popEmpty fuel ⟨[]⟩ other = popEmpty.map fun _ => ⟨[]⟩ := by
  cases popEmpty <;> simp [intersectedIn, SortFunction, pop_front, intersectedInLoop]

/-- Whatever the input, a result of `intersectedIn` holds no span. -/
theorem intersectedIn_eq_some (popEmpty : Option (QxtSpan T)) (fuel : Nat)
    (S R : QxtSpanSet T) (other : QxtSpan T)
    (h : intersectedIn popEmpty fuel S other = some R) : R = ⟨[]⟩ := by
  rcases S with ⟨d⟩
  match d, h with
  | [], h =>
    rw [intersectedIn_of_empty] at h
    cases popEmpty <;> simp_all
  | [x], h =>
    rw [intersectedIn_of_single] at h
    exact (Option.some.inj h).symm
  | x :: y :: rest, h =>
    rw [intersectedIn_of_two_le _ _ _ _ (by simp)] at h
    cases h

/-! ## The claims -/

/-- C1 (the source departs from it): as soon as the two sets hold two or more spans between them,
`mergeSpans` yields no result, for every bound on the loop and whatever `pop_front` does on an
empty sequence: the loop keeps reading the same first span of the sorted copy, since line 286
pops the receiver instead. So there is no result to be disjoint and ascending. -/
theorem mergeSpans_yields_nothing (popEmpty : Option (QxtSpan T)) (fuel : Nat)
    (S other : QxtSpanSet T) (h : 2 ≤ S.length + other.length) :
    mergeSpans popEmpty fuel S other = none :=
  mergeSpans_of_two_le popEmpty fuel S other h

/-- The sets `{(1,2)}` and `{(3,4)}` hold two spans between them, and `mergeSpans` yields no
result on them. -/
theorem mergeSpans_yields_nothing_witness :
    2 ≤ (⟨[⟨1, 2⟩]⟩ : QxtSpanSet Int).length + (⟨[⟨3, 4⟩]⟩ : QxtSpanSet Int).length ∧
      ∀ (popEmpty : Option (QxtSpan Int)) (fuel : Nat),
        mergeSpans popEmpty fuel ⟨[⟨1, 2⟩]⟩ ⟨[⟨3, 4⟩]⟩ = none :=
  ⟨by decide, fun popEmpty fuel => mergeSpans_yields_nothing popEmpty fuel _ _ (by decide)⟩

/-- C2 (the source departs from it): the point 4 lies in a span of the inputs `{(1,5)}` and
`{(3,8)}`, yet `mergeSpans` yields no result on them, so no span of a result holds the point. -/
theorem mergeSpans_covers_nothing :
    covered ((⟨[⟨1, 5⟩]⟩ : QxtSpanSet Int).d ++ (⟨[⟨3, 8⟩]⟩ : QxtSpanSet Int).d) 4 ∧
      ∀ (popEmpty : Option (QxtSpan Int)) (fuel : Nat),
        mergeSpans popEmpty fuel ⟨[⟨1, 5⟩]⟩ ⟨[⟨3, 8⟩]⟩ = none :=
  ⟨by decide, fun popEmpty fuel => mergeSpans_of_two_le popEmpty fuel _ _ (by decide)⟩

/-- C3 (the source departs from it): on the sets `{(1,5),(20,30)}` and `{(3,8)}` every collection
of spans that covers exactly the points of the inputs has two spans or more, and the sweep of the
spec returns two, `{(1,8),(20,30)}`; `mergeSpans` yields no result, for every bound on the loop
and whatever `pop_front` does on an empty sequence, so it returns no minimal set. -/
theorem mergeSpans_minimal_yields_nothing :
    (∀ (popEmpty : Option (QxtSpan Int)) (fuel : Nat),
      mergeSpans popEmpty fuel ⟨[⟨1, 5⟩, ⟨20, 30⟩]⟩ ⟨[⟨3, 8⟩]⟩ = none) ∧
    specMergeSpans (⟨[⟨1, 5⟩, ⟨20, 30⟩]⟩ : QxtSpanSet Int) ⟨[⟨3, 8⟩]⟩ =
      ⟨[⟨1, 8⟩, ⟨20, 30⟩]⟩ ∧
    ∀ C : List (QxtSpan Int),
      (∀ p, covered C p ↔
        covered ((⟨[⟨1, 5⟩, ⟨20, 30⟩]⟩ : QxtSpanSet Int).d ++
          (⟨[⟨3, 8⟩]⟩ : QxtSpanSet Int).d) p) →
      2 ≤ C.length := by
  refine ⟨fun popEmpty fuel => mergeSpans_of_two_le popEmpty fuel _ _ (by decide), by decide, ?_⟩
  intro C hcov
  have h8 : covered C 8 := (hcov 8).2 (by decide)
  have h20 : covered C 20 := (hcov 20).2 (by decide)
  have h9 : ¬ covered C 9 := fun h => absurd ((hcov 9).1 h) (by decide)
  match C, h8, h20, h9 with
  | [], h8, _, _ =>
    obtain ⟨x, hx, _⟩ := h8
    cases hx
  | [x], h8, h20, h9 =>
    exfalso
    obtain ⟨y, hy, hy8⟩ := h8
    obtain ⟨z, hz, hz20⟩ := h20
    rw [List.mem_singleton] at hy hz
    rw [hy] at hy8
    rw [hz] at hz20
    apply h9
    refine ⟨x, List.mem_singleton_self x, ?_, ?_⟩
    · exact le_trans hy8.1 (by decide)
    · exact le_trans (by decide) hz20.2
  | _ :: _ :: _, _, _, _ => simp

/-- C4 (the source departs from it): a single span is returned as it is, but on the two
scenarios of pairwise non-intersecting spans, `{(100,200),(1000,2000)}` and
`{(10,20),(100,200),(1000,3000)}`, `mergeSpans` yields no result. -/
theorem mergeSpans_disjoint_scenarios (popEmpty : Option (QxtSpan Nat)) (fuel : Nat) :
    (∀ x : QxtSpan Nat, mergeSpans popEmpty fuel ⟨[x]⟩ ⟨[]⟩ = some (⟨[x]⟩, ⟨[x]⟩)) ∧
      mergeSpans popEmpty fuel ⟨[⟨100, 200⟩, ⟨1000, 2000⟩]⟩ ⟨[]⟩ = none ∧
      mergeSpans popEmpty fuel ⟨[⟨10, 20⟩, ⟨100, 200⟩, ⟨1000, 3000⟩]⟩ ⟨[]⟩ = none :=
  ⟨fun x => mergeSpans_of_single popEmpty fuel _ _ x rfl,
    mergeSpans_of_two_le popEmpty fuel _ _ (by decide),
    mergeSpans_of_two_le popEmpty fuel _ _ (by decide)⟩

/-- C5 (the source departs from it): on any two spans `X` and `Y`, merged with an empty set in
either order, `mergeSpans` yields no result; so it is on the scenarios `{(100,200),(150,300)}` and
`{(1,5),(5,10)}`. -/
theorem mergeSpans_pair_yields_nothing (popEmpty : Option (QxtSpan T)) (fuel : Nat)
    (X Y : QxtSpan T) :
    mergeSpans popEmpty fuel ⟨[X, Y]⟩ ⟨[]⟩ = none ∧
      mergeSpans popEmpty fuel ⟨[]⟩ ⟨[X, Y]⟩ = none :=
  ⟨mergeSpans_of_two_le popEmpty fuel _ _ (by simp),
    mergeSpans_of_two_le popEmpty fuel _ _ (by simp)⟩

/-- C6 (the source departs from it): on two empty sets `mergeSpans` never returns the empty set.
It has no result when `pop_front` faults on the empty copy, and otherwise returns the one-element
set of whatever span `pop_front` yielded there, appended by line 288. -/
theorem mergeSpans_empty_sets (popEmpty : Option (QxtSpan T)) (fuel : Nat) :
    mergeSpans popEmpty fuel ⟨[]⟩ ⟨[]⟩ = popEmpty.map (fun s => (⟨[s]⟩, ⟨[]⟩)) ∧
      ∀ R : QxtSpanSet T, mergeSpans popEmpty fuel ⟨[]⟩ ⟨[]⟩ ≠ some (⟨[]⟩, R) := by
  refine ⟨mergeSpans_of_empty popEmpty fuel, fun R => ?_⟩
  rw [mergeSpans_of_empty]
  cases popEmpty <;> simp

/-- C7: `isEqualTo` holds exactly when the two sets hold the same spans with the same
multiplicities, in any order. -/
theorem isEqualTo_iff_perm (S S' : QxtSpanSet T) :
    (S.isEqualTo S' = true ↔ S.d.Perm S'.d) ∧
      (S.isEqualTo S' = true ↔ ∀ x : QxtSpan T, S.d.count x = S'.d.count x) := by
  have h : S.isEqualTo S' = true ↔ S.d.Perm S'.d := by
    unfold isEqualTo
    simp only [isIdenticalTo_iff, sort, mk.injEq]
    exact SortFunction_eq_iff_perm _ _
  exact ⟨h, h.trans List.perm_iff_count⟩

/-- C8, as amended: when the spans of `S` are pairwise distinct, `S` is identical to its
reordering by `p` exactly when `p` is the identity. -/
theorem isIdenticalTo_reorder_nodup (S : QxtSpanSet T) (p : Equiv.Perm (Fin S.d.length))
    (h : S.d.Nodup) : S.isIdenticalTo (S.reorder p) = true ↔ p = 1 := by
  rw [isIdenticalTo_reorder_iff]
  constructor
  · intro hp
    apply Equiv.ext
    intro i
    exact (List.nodup_iff_injective_get.1 h) (hp i)
  · rintro rfl i
    rfl

/-- The set `{(1,2),(3,4)}`, of two distinct spans, and the swap of its two positions. -/
theorem isIdenticalTo_reorder_nodup_witness :
    (⟨[⟨1, 2⟩, ⟨3, 4⟩]⟩ : QxtSpanSet Int).d.Nodup ∧
      ((⟨[⟨1, 2⟩, ⟨3, 4⟩]⟩ : QxtSpanSet Int).isIdenticalTo
        (reorder ⟨[⟨1, 2⟩, ⟨3, 4⟩]⟩ (Equiv.swap ⟨0, by decide⟩ ⟨1, by decide⟩)) = true ↔
        Equiv.swap (⟨0, by decide⟩ : Fin 2) ⟨1, by decide⟩ = 1) :=
  ⟨by decide, isIdenticalTo_reorder_nodup _ _ (by decide)⟩

/-- C8 fails as stated: the set `{(1,2),(1,2)}` is identical to its reordering by the swap of its
two positions, which is not the identity. -/
theorem isIdenticalTo_reorder_duplicates :
    ∃ p : Equiv.Perm (Fin (⟨[⟨1, 2⟩, ⟨1, 2⟩]⟩ : QxtSpanSet Int).d.length),
      p ≠ 1 ∧ (⟨[⟨1, 2⟩, ⟨1, 2⟩]⟩ : QxtSpanSet Int).isIdenticalTo
        (reorder ⟨[⟨1, 2⟩, ⟨1, 2⟩]⟩ p) = true := by
  refine ⟨Equiv.swap ⟨0, by decide⟩ ⟨1, by decide⟩, ?_, ?_⟩
  · intro h
    have := congrArg (fun q : Equiv.Perm (Fin 2) => (q ⟨0, by decide⟩).val) h
    simp at this
  · decide

/-- C9 (the source departs from it): on the set `{(1,2)}` and the boundary `(0,10)`, which
contains the span, `containedIn` returns the empty set, the span having been popped into `current`
and never tested, while the reference gives `{(1,2)}`. -/
theorem containedIn_drops_first (popEmpty : Option (QxtSpan Int)) (fuel : Nat) :
    containedIn popEmpty fuel ⟨[⟨1, 2⟩]⟩ ⟨0, 10⟩ = some ⟨[]⟩ ∧
      containedInReference (⟨[⟨1, 2⟩]⟩ : QxtSpanSet Int) ⟨0, 10⟩ = ⟨[⟨1, 2⟩]⟩ :=
  ⟨containedIn_of_single _ _ _ _, by decide⟩

/-- C10 (the source departs from it): on the set `{(1,2)}` and the span `(0,10)`, which
intersects its one span, `intersectedIn` returns the empty set. -/
theorem intersectedIn_drops_first (popEmpty : Option (QxtSpan Int)) (fuel : Nat) :
    intersectedIn popEmpty fuel ⟨[⟨1, 2⟩]⟩ ⟨0, 10⟩ = some ⟨[]⟩ ∧
      (⟨[⟨1, 2⟩]⟩ : QxtSpanSet Int).d.filter (fun s => (⟨0, 10⟩ : QxtSpan Int).intersects s) =
        [⟨1, 2⟩] :=
  ⟨intersectedIn_of_single _ _ _ _, by decide⟩

end QxtSpanSet

namespace QxtSpan

variable {T : Type} [LinearOrder T]

/-! ## Spans: constructors, merge and the order -/

theorem ofEndpoints_eq (a b : T) : ofEndpoints a b = ⟨min a b, max a b⟩ := by
  unfold ofEndpoints
  by_cases h : a > b
  · rw [if_pos h, min_eq_right (le_of_lt h), max_eq_left (le_of_lt h)]
  · rw [if_neg h, min_eq_left (not_lt.1 h), max_eq_right (not_lt.1 h)]

theorem merge_ordered (x y : QxtSpan T) (hx : x.A ≤ x.B) : (x.merge y).A ≤ (x.merge y).B := by
  unfold merge
  by_cases h : x.intersects y = true
  · simp only [h, Bool.not_true, Bool.false_eq_true, if_false]
    exact le_trans (min_le_left _ _) (le_trans hx (le_max_left _ _))
  · simp only [h, Bool.not_eq_true', if_true, Bool.not_false]
    simpa [h] using hx

theorem contains_iff (x y : QxtSpan T) : x.contains y = true ↔ x.A ≤ y.A ∧ y.B ≤ x.B := by
  simp [contains]

theorem eq_iff_fields (x y : QxtSpan T) : x.eq y = true ↔ x.A = y.A ∧ x.B = y.B := by
  simp [QxtSpan.eq]

theorem lt_irrefl_span (x : QxtSpan T) : x.lt x = false := by
  simp [lt]

theorem lt_trans_span (x y z : QxtSpan T) (h1 : x.lt y = true) (h2 : y.lt z = true) :
    x.lt z = true := by
  rw [lt_iff] at h1 h2 ⊢
  rcases h1 with h1 | ⟨e1, b1⟩ <;> rcases h2 with h2 | ⟨e2, b2⟩
  · exact Or.inl (lt_trans h1 h2)
  · exact Or.inl (e2 ▸ h1)
  · exact Or.inl (e1 ▸ h2)
  · exact Or.inr ⟨e1.trans e2, lt_trans b1 b2⟩

theorem lt_false_both_iff (x y : QxtSpan T) :
    (x.lt y = false ∧ y.lt x = false) ↔ (x.A = y.A ∧ x.B = y.B) := by
  rw [lt_eq_false_iff, lt_eq_false_iff]
  constructor
  · rintro ⟨h1 | ⟨e1, b1⟩, h2 | ⟨e2, b2⟩⟩
    · exact absurd h2 (lt_asymm h1)
    · exact absurd h1 (e2 ▸ lt_irrefl _)
    · exact absurd h2 (e1 ▸ lt_irrefl _)
    · exact ⟨e2, le_antisymm b2 b1⟩
  · rintro ⟨ea, eb⟩
    exact ⟨Or.inr ⟨ea.symm, le_of_eq eb.symm⟩, Or.inr ⟨ea, le_of_eq eb⟩⟩

theorem lt_trichotomy_span (x y : QxtSpan T) :
    (x.lt y = true ∧ y.lt x = false ∧ x.eq y = false) ∨
      (x.lt y = false ∧ y.lt x = true ∧ x.eq y = false) ∨
      (x.lt y = false ∧ y.lt x = false ∧ x.eq y = true) := by
  by_cases hxy : x.lt y = true
  · left
    have hyx : y.lt x = false := by
      rw [lt_eq_false_iff]
      rcases (lt_iff x y).1 hxy with h | ⟨e, b⟩
      · exact Or.inl h
      · exact Or.inr ⟨e, le_of_lt b⟩
    refine ⟨hxy, hyx, ?_⟩
    rw [← Bool.not_eq_true, eq_iff_fields]
    rintro ⟨ea, eb⟩
    rcases (lt_iff x y).1 hxy with h | ⟨_, b⟩
    · exact absurd ea (ne_of_lt h)
    · exact absurd eb (ne_of_lt b)
  · rw [Bool.not_eq_true] at hxy
    by_cases hyx : y.lt x = true
    · right; left
      refine ⟨hxy, hyx, ?_⟩
      rw [← Bool.not_eq_true, eq_iff_fields]
      rintro ⟨ea, eb⟩
      rcases (lt_iff y x).1 hyx with h | ⟨_, b⟩
      · exact absurd ea.symm (ne_of_lt h)
      · exact absurd eb.symm (ne_of_lt b)
    · rw [Bool.not_eq_true] at hyx
      right; right
      exact ⟨hxy, hyx, (eq_iff_fields x y).2 ((lt_false_both_iff x y).1 ⟨hxy, hyx⟩)⟩

/-! ## The claims on spans -/

/-- C11: the span built from two endpoints has the smaller one as `A` and the larger one as `B`,
so `A ≤ B`; the span built from 5 and 2 is `(2,5)`. -/
theorem ofEndpoints_min_max (a b : T) :
    (ofEndpoints a b).A = min a b ∧ (ofEndpoints a b).B = max a b ∧
      (ofEndpoints a b).A ≤ (ofEndpoints a b).B ∧
      ofEndpoints (5 : Int) 2 = ⟨2, 5⟩ := by
  rw [ofEndpoints_eq]
  exact ⟨rfl, rfl, min_le_max, by decide⟩

/-- C12 (the source departs from it): the initializer-list constructor stores the two values as
given, so `{5, 2}` is the span with `A = 5` and `B = 2`, which breaks `A ≤ B`. The other sites
keep it: the default constructor, the two-endpoint constructor, and `merge` on a receiver with
`A ≤ B`. -/
theorem ofInitializerList_keeps_order :
    (ofInitializerList [(5 : Int), 2] = ⟨5, 2⟩ ∧
      (ofInitializerList [(5 : Int), 2]).B < (ofInitializerList [(5 : Int), 2]).A) ∧
    ((QxtSpan.default : QxtSpan Int).A ≤ (QxtSpan.default : QxtSpan Int).B) ∧
    (∀ a b : Int, (ofEndpoints a b).A ≤ (ofEndpoints a b).B) ∧
    (∀ x y : QxtSpan Int, x.A ≤ x.B → y.A ≤ y.B → (x.merge y).A ≤ (x.merge y).B) := by
  refine ⟨⟨rfl, by decide⟩, le_refl _, fun a b => ?_, fun x y hx _ => merge_ordered x y hx⟩
  rw [ofEndpoints_eq]; exact min_le_max

/-- C13: `merge` is the reference of the spec: a receiver that does not intersect the argument is
left unchanged, and one that does gets the smaller `A` and the larger `B`. -/
theorem merge_eq_mergeReference (x y : QxtSpan T) :
    x.merge y = x.mergeReference y ∧
      (x.intersects y = false → x.merge y = x) ∧
      (x.intersects y = true →
        (x.merge y).A = min x.A y.A ∧ (x.merge y).B = max x.B y.B) := by
  refine ⟨?_, ?_, ?_⟩
  · unfold merge mergeReference
    by_cases h : x.intersects y = true <;> simp [h]
  · intro h; simp [merge, h]
  · intro h; rw [merge_of_intersects x y h]; exact ⟨rfl, rfl⟩

/-- C14: when `x` intersects `y`, the span `x` becomes by `merge` contains `y` and contains the
original `x`. -/
theorem merge_contains (x y : QxtSpan T) (h : x.intersects y = true) :
    (x.merge y).contains y = true ∧ (x.merge y).contains x = true := by
  rw [merge_of_intersects x y h, contains_iff, contains_iff]
  exact ⟨⟨min_le_right _ _, le_max_right _ _⟩, ⟨min_le_left _ _, le_max_left _ _⟩⟩

/-- The spans `(100,200)` and `(150,300)` intersect, and their merge contains both. -/
theorem merge_contains_witness :
    (⟨100, 200⟩ : QxtSpan Int).intersects ⟨150, 300⟩ = true ∧
      (((⟨100, 200⟩ : QxtSpan Int).merge ⟨150, 300⟩).contains ⟨150, 300⟩ = true ∧
        ((⟨100, 200⟩ : QxtSpan Int).merge ⟨150, 300⟩).contains ⟨100, 200⟩ = true) :=
  ⟨by decide, merge_contains _ _ (by decide)⟩

/-- C15: `intersects` gives the same answer with receiver and argument exchanged. -/
theorem intersects_symmetric (x y : QxtSpan T) : x.intersects y = y.intersects x :=
  intersects_comm x y

/-- C16: a span that contains a span `y` with `y.A ≤ y.B` intersects it. -/
theorem intersects_of_contains (x y : QxtSpan T) (hy : y.A ≤ y.B) (h : x.contains y = true) :
    x.intersects y = true := by
  rw [contains_iff] at h
  rw [intersects_iff]
  exact ⟨le_trans hy h.2, le_trans h.1 hy⟩

/-- The span `(0,10)` contains `(3,4)`, and intersects it. -/
theorem intersects_of_contains_witness :
    (⟨3, 4⟩ : QxtSpan Int).A ≤ (⟨3, 4⟩ : QxtSpan Int).B ∧
      (⟨0, 10⟩ : QxtSpan Int).contains ⟨3, 4⟩ = true ∧
      (⟨0, 10⟩ : QxtSpan Int).intersects ⟨3, 4⟩ = true :=
  ⟨by decide, by decide, intersects_of_contains _ _ (by decide) (by decide)⟩

/-- C17: `operator<` is the lexicographic order on `(A, B)`; it is irreflexive and transitive;
of `x < y`, `y < x` and `x == y` exactly one holds; and two spans are unordered either way
exactly when they have the same `A` and the same `B`. -/
theorem lt_lexicographic :
    (∀ x y : QxtSpan T, x.lt y = true ↔ x.A < y.A ∨ (x.A = y.A ∧ x.B < y.B)) ∧
    (∀ x : QxtSpan T, x.lt x = false) ∧
    (∀ x y z : QxtSpan T, x.lt y = true → y.lt z = true → x.lt z = true) ∧
    (∀ x y : QxtSpan T,
      (x.lt y = true ∧ y.lt x = false ∧ x.eq y = false) ∨
      (x.lt y = false ∧ y.lt x = true ∧ x.eq y = false) ∨
      (x.lt y = false ∧ y.lt x = false ∧ x.eq y = true)) ∧
    (∀ x y : QxtSpan T, (x.lt y = false ∧ y.lt x = false) ↔ (x.A = y.A ∧ x.B = y.B)) :=
  ⟨lt_iff, lt_irrefl_span, lt_trans_span, lt_trichotomy_span, lt_false_both_iff⟩

end QxtSpan

namespace QxtSpanSet

variable {T : Type} [LinearOrder T]

/-! ## The receiver of `mergeSpans` -/

/-- The loop of `mergeSpans` is the repetition of its body. -/
theorem mergeSpansLoop_succ (popEmpty : Option (QxtSpan T)) (span : QxtSpan T)
    (c d r : List (QxtSpan T)) (current : QxtSpan T) (fuel : Nat) :
    mergeSpansLoop popEmpty (span :: c) (fuel + 1) d current r =
      (mergeSpansBody popEmpty span (d, current, r)).bind fun s =>
        mergeSpansLoop popEmpty (span :: c) fuel s.1 s.2.1 s.2.2 := by
  rw [mergeSpansLoop]
  unfold mergeSpansBody
  cases pop_front popEmpty d with
  | none => rfl
  | some p => rfl

/-- A call of `mergeSpans` that returns has not entered its loop, and leaves the receiver as it
was. -/
theorem mergeSpans_eq_some_receiver (popEmpty : Option (QxtSpan T)) (fuel : Nat)
    (S other R S' : QxtSpanSet T) (h : mergeSpans popEmpty fuel S other = some (R, S')) :
    S' = S := by
  rcases S with ⟨d⟩
  rcases other with ⟨o⟩
  match d, o, h with
  | [], [], h =>
    rw [mergeSpans_of_empty] at h
    cases popEmpty with
    | none => cases h
    | some s =>
      simp only [Option.map_some', Option.some.injEq, Prod.mk.injEq] at h
      exact h.2.symm
  | [x], [], h =>
    rw [mergeSpans_of_single popEmpty fuel ⟨[x]⟩ ⟨[]⟩ x rfl] at h
    simp only [Option.some.injEq, Prod.mk.injEq] at h
    exact h.2.symm
  | [], [y], h =>
    rw [mergeSpans_of_single popEmpty fuel ⟨[]⟩ ⟨[y]⟩ y rfl] at h
    simp only [Option.some.injEq, Prod.mk.injEq] at h
    exact h.2.symm
  | x :: y :: d, o, h =>
    rw [mergeSpans_of_two_le popEmpty fuel _ _ (by simp [length]; omega)] at h
    cases h
  | [x], y :: o, h =>
    rw [mergeSpans_of_two_le popEmpty fuel _ _ (by simp [length]; omega)] at h
    cases h
  | [], x :: y :: o, h =>
    rw [mergeSpans_of_two_le popEmpty fuel _ _ (by simp [length])] at h
    cases h

/-! ## The scan of the spec on canonical sets -/

theorem takeWhile_eq_filter_of_pairwise {α : Type} (P : α → Bool) :
    ∀ l : List α, l.Pairwise (fun x y => P x = false → P y = false) →
      l.takeWhile P = l.filter P
  | [], _ => rfl
  | x :: l, h => by
    obtain ⟨hx, hl⟩ := List.pairwise_cons.1 h
    cases hP : P x with
    | true =>
      rw [List.takeWhile_cons_of_pos hP, List.filter_cons_of_pos hP,
        takeWhile_eq_filter_of_pairwise P l hl]
    | false =>
      rw [List.takeWhile_cons_of_neg (by simp [hP]), List.filter_cons_of_neg (by simp [hP])]
      symm
      rw [List.filter_eq_nil_iff]
      intro y hy
      simp [hx y hy hP]

/-- A scan that drops the leading elements failing the test and then keeps the longest run of
elements passing it finds every element passing it, when the test is the conjunction of a
condition that, once met, stays met and of one that, once failed, stays failed. -/
theorem dropWhile_takeWhile_eq_filter {α : Type} (P : α → Bool) (Q R : α → Prop)
    (hP : ∀ x, P x = true ↔ Q x ∧ R x) :
    ∀ l : List α, l.Pairwise (fun x y => (Q x → Q y) ∧ (R y → R x)) →
      (l.dropWhile fun s => !P s).takeWhile P = l.filter P
  | [], _ => rfl
  | x :: l, h => by
    obtain ⟨hx, hl⟩ := List.pairwise_cons.1 h
    cases hPx : P x with
    | true =>
      rw [List.dropWhile_cons_of_neg (by simp [hPx])]
      apply takeWhile_eq_filter_of_pairwise
      have hQ : ∀ u ∈ x :: l, Q u := by
        intro u hu
        rcases List.mem_cons.1 hu with rfl | hu
        · exact ((hP _).1 hPx).1
        · exact (hx u hu).1 ((hP x).1 hPx).1
      refine h.imp_of_mem ?_
      intro u v hu _ huv hPu
      rw [← Bool.not_eq_true, hP] at hPu ⊢
      intro hv
      exact hPu ⟨hQ u hu, huv.2 hv.2⟩
    | false =>
      rw [List.dropWhile_cons_of_pos (by simp [hPx]), List.filter_cons_of_neg (by simp [hPx])]
      exact dropWhile_takeWhile_eq_filter P Q R hP l hl

theorem SortFunction_separated (l : List (QxtSpan T)) (hv : ∀ x ∈ l, x.A ≤ x.B)
    (hd : l.Pairwise fun x y => x.intersects y = false) :
    (SortFunction l).Pairwise fun x y => x.B < y.A := by
  have hsym : Symmetric fun x y : QxtSpan T => x.intersects y = false := by
    intro x y hxy
    rw [QxtSpan.intersects_comm]; exact hxy
  have hs : (SortFunction l).Pairwise fun x y => x.intersects y = false :=
    ((SortFunction_perm l).pairwise_iff (fun {a b} hab => hsym hab)).2 hd
  refine ((SortFunction_pairwise_A l).and hs).imp_of_mem ?_
  intro x y _ hy hxy
  rcases (QxtSpan.intersects_eq_false_iff x y).1 hxy.2 with h | h
  · exact h
  · exact absurd (le_trans hxy.1 (hv y ((SortFunction_perm l).mem_iff.1 hy))) (not_le.2 h)

/-- On spans with `A ≤ B` of which no two intersect, the scan of the spec finds every span that
intersects the boundary. -/
theorem intersectedInReference_eq_filter (S : QxtSpanSet T) (b : QxtSpan T)
    (hv : ∀ x ∈ S.d, x.A ≤ x.B) (hd : S.d.Pairwise fun x y => x.intersects y = false) :
    intersectedInReference S b = ⟨(SortFunction S.d).filter fun s => b.intersects s⟩ := by
  unfold intersectedInReference
  congr 1
  refine dropWhile_takeWhile_eq_filter (fun s => b.intersects s) (fun s => b.A ≤ s.B)
    (fun s => s.A ≤ b.B) ?_ _ ?_
  · intro s
    rw [QxtSpan.intersects_iff, and_comm]
  · refine (SortFunction_separated S.d hv hd).imp_of_mem ?_
    intro x y hx hy hxy
    have hvx := hv x ((SortFunction_perm S.d).mem_iff.1 hx)
    have hvy := hv y ((SortFunction_perm S.d).mem_iff.1 hy)
    exact ⟨fun h => le_trans h (le_trans (le_of_lt hxy) hvy),
      fun h => le_trans hvx (le_trans (le_of_lt hxy) h)⟩

/-! ## The claims on frames, termination and the scan -/

/-- C18 (the source departs from it): during `S.mergeSpans(O)` on `S = {(1,2),(3,4)}` and an empty
`O` the receiver is popped by line 286: it holds `{(3,4)}` after one execution of the loop body and
nothing after two, and the call yields no result for any bound on the loop. -/
theorem mergeSpans_pops_receiver (popEmpty : Option (QxtSpan Int)) :
    mergeSpansReceiverAfter popEmpty 0 ⟨[⟨1, 2⟩, ⟨3, 4⟩]⟩ ⟨[]⟩ = some ⟨[⟨1, 2⟩, ⟨3, 4⟩]⟩ ∧
      mergeSpansReceiverAfter popEmpty 1 ⟨[⟨1, 2⟩, ⟨3, 4⟩]⟩ ⟨[]⟩ = some ⟨[⟨3, 4⟩]⟩ ∧
      mergeSpansReceiverAfter popEmpty 2 ⟨[⟨1, 2⟩, ⟨3, 4⟩]⟩ ⟨[]⟩ = some ⟨[]⟩ ∧
      ∀ fuel : Nat, mergeSpans popEmpty fuel ⟨[⟨1, 2⟩, ⟨3, 4⟩]⟩ ⟨[]⟩ = none :=
  ⟨rfl, rfl, rfl, fun fuel => mergeSpans_of_two_le popEmpty fuel _ _ (by decide)⟩

/-- C19 (the source departs from it): on the set `{(1,2),(3,4)}` none of `containedIn`,
`intersectedIn` and `mergeSpans` yields a result, for any bound on the loop; and on the empty set
each has a result only when `pop_front` hands back a value from the empty copy. -/
theorem scans_yield_nothing (popEmpty : Option (QxtSpan Int)) (fuel : Nat) :
    containedIn popEmpty fuel ⟨[⟨1, 2⟩, ⟨3, 4⟩]⟩ ⟨0, 10⟩ = none ∧
      intersectedIn popEmpty fuel ⟨[⟨1, 2⟩, ⟨3, 4⟩]⟩ ⟨0, 10⟩ = none ∧
      mergeSpans popEmpty fuel ⟨[⟨1, 2⟩, ⟨3, 4⟩]⟩ ⟨[]⟩ = none ∧
      containedIn popEmpty fuel ⟨[]⟩ ⟨0, 10⟩ = popEmpty.map (fun _ => ⟨[]⟩) ∧
      intersectedIn popEmpty fuel ⟨[]⟩ ⟨0, 10⟩ = popEmpty.map (fun _ => ⟨[]⟩) ∧
      mergeSpans popEmpty fuel ⟨[]⟩ ⟨[]⟩ = popEmpty.map (fun s => (⟨[s]⟩, ⟨[]⟩)) :=
  ⟨containedIn_of_two_le _ _ _ _ (by decide), intersectedIn_of_two_le _ _ _ _ (by decide),
    mergeSpans_of_two_le _ _ _ _ (by decide), containedIn_of_empty _ _ _,
    intersectedIn_of_empty _ _ _, mergeSpans_of_empty _ _⟩

/-- C20 (the source departs from it): the set `{(10,20)}` is canonical and the boundary `(15,30)`
intersects its span, yet `intersectedIn` returns the empty set, the span having been popped into
`current` and never tested; the spans that intersect the boundary, and the scan of the spec, are
`{(10,20)}`. -/
theorem intersectedIn_canonical_drops_first (popEmpty : Option (QxtSpan Nat)) (fuel : Nat) :
    ((∀ x ∈ (⟨[⟨10, 20⟩]⟩ : QxtSpanSet Nat).d, x.A ≤ x.B) ∧
      (⟨[⟨10, 20⟩]⟩ : QxtSpanSet Nat).d.Pairwise (fun x y => x.intersects y = false) ∧
      (⟨15, 30⟩ : QxtSpan Nat).A ≤ (⟨15, 30⟩ : QxtSpan Nat).B) ∧
    intersectedIn popEmpty fuel ⟨[⟨10, 20⟩]⟩ ⟨15, 30⟩ = some ⟨[]⟩ ∧
    (SortFunction (⟨[⟨10, 20⟩]⟩ : QxtSpanSet Nat).d).filter
      (fun s => (⟨15, 30⟩ : QxtSpan Nat).intersects s) = [⟨10, 20⟩] ∧
    intersectedInReference (⟨[⟨10, 20⟩]⟩ : QxtSpanSet Nat) ⟨15, 30⟩ = ⟨[⟨10, 20⟩]⟩ :=
  ⟨⟨by decide, by decide, by decide⟩, intersectedIn_of_single _ _ _ _, by decide, by decide⟩

end QxtSpanSet

end Qxt
